import Mathlib

/-!
Verification of the YouTube-transcription pipeline specification:
media size estimation, chunk planning, transcript merging, sequential
chunk transcription, and the job state machine, together with the
frontend URL validation and the persisted job-status enumeration.
The worker implementation is not part of the repository snapshot, so the
core pipeline components are modelled from the specification text; the
frontend components and the database schema are embedded from the source.
-/

namespace YtT

/-- Modelled from the spec: the environment-style configuration consumed by
the core (`MAX_UPLOAD_MB`, `TARGET_UPLOAD_MB`, `AUDIO_BITRATE_KBPS`,
`CHUNK_OVERLAP_SEC`, `MAX_SINGLE_CHUNK_SEC`); `maxSingleChunkSec ≤ 0`
disables duration-based splitting. -/
structure PipelineConfig where
  maxUploadMB : ℕ
  targetUploadMB : ℕ
  audioBitrateKbps : ℕ
  chunkOverlapSec : ℚ
  maxSingleChunkSec : ℤ
  deriving DecidableEq, Repr

/-- Default configuration values (25, 24, 48, 0.8, 900). -/
def defaultConfig : PipelineConfig :=
  { maxUploadMB := 25, targetUploadMB := 24, audioBitrateKbps := 48,
    chunkOverlapSec := 4/5, maxSingleChunkSec := 900 }

/-- Modelled from the spec: one physical audio file — duration in seconds
and byte size. -/
structure AudioAsset where
  duration : ℚ
  byteSize : ℕ
  deriving DecidableEq, Repr

/-- `target_upload_bytes = TARGET_UPLOAD_MB * 1024 * 1024`. -/
def targetUploadBytes (c : PipelineConfig) : ℕ :=
  c.targetUploadMB * 1024 * 1024

/-- `bytes_per_sec = bitrate_kbps * 1000 / 8`. -/
def bytesPerSec (c : PipelineConfig) : ℕ :=
  c.audioBitrateKbps * 1000 / 8

/-- `max_chunk_duration = floor(target_bytes * 0.98 / bytes_per_sec)`:
the size-derived maximum chunk duration with the 2% safety margin,
computed in natural-number arithmetic (floor division). -/
def sizeMaxChunkDuration (c : PipelineConfig) : ℕ :=
  targetUploadBytes c * 98 / (bytesPerSec c * 100)

/-- Modelled from the spec: the effective chunk-duration cap. When
`MAX_SINGLE_CHUNK_SEC` is positive it also caps the chunk duration
(long audio is split for stability even when the size alone would fit);
when it is ≤ 0 duration-based splitting is disabled. -/
def effectiveMaxChunkDuration (c : PipelineConfig) : ℕ :=
  if 0 < c.maxSingleChunkSec then
    min (sizeMaxChunkDuration c) c.maxSingleChunkSec.toNat
  else sizeMaxChunkDuration c

/-- Whether the duration passes the `MAX_SINGLE_CHUNK_SEC` test
(a non-positive threshold disables the test). -/
def durationFitsSingle (c : PipelineConfig) (d : ℚ) : Prop :=
  c.maxSingleChunkSec ≤ 0 ∨ d ≤ (c.maxSingleChunkSec : ℚ)

instance (c : PipelineConfig) (d : ℚ) : Decidable (durationFitsSingle c d) := by
  unfold durationFitsSingle; infer_instance

/-- The preprocessing strategy chosen for an asset. -/
inductive Strategy
  | asIs
  | compress
  | compressThenSplit
  deriving DecidableEq, Repr

/-- Modelled from the spec: `MediaSizeEstimator.estimate` — if byte size is
within the upload budget and duration within the max-single-chunk
threshold, choose `AS_IS`, else choose `COMPRESS`. -/
def MediaSizeEstimator.estimate (c : PipelineConfig) (a : AudioAsset) : Strategy :=
  if a.byteSize ≤ targetUploadBytes c ∧ durationFitsSingle c a.duration then
    .asIs
  else .compress

/-- Modelled from the spec: `AudioCompressor.compress` re-encodes to a
constant-bitrate format with deterministic size, so the compressed byte
size is duration times `bytes_per_sec` (rounded up). -/
def AudioCompressor.compress (c : PipelineConfig) (a : AudioAsset) : AudioAsset :=
  { duration := a.duration, byteSize := (Int.toNat ⌈a.duration * (bytesPerSec c : ℚ)⌉) }

/-- One chunk descriptor of a ChunkPlan: index, start offset (seconds),
duration (seconds) and expected byte size. -/
structure Chunk where
  index : ℕ
  start : ℚ
  duration : ℚ
  expectedBytes : ℚ
  deriving DecidableEq, Repr

/-- A chunk's end offset (`end` is reserved in Lean). -/
def Chunk.stop (ch : Chunk) : ℚ := ch.start + ch.duration

/-- The planning error taxonomy member raised on a degenerate
chunk-size computation. -/
inductive PlanError
  | planningError
  deriving DecidableEq, Repr

/-- Number of chunks: the source duration walked in steps of
`max_chunk_duration`. -/
def nChunks (d : ℚ) (dmax : ℕ) : ℕ :=
  (Int.toNat ⌈d / (dmax : ℚ)⌉)

/-- Modelled from the spec: the start of chunk `i` — the first chunk
starts at 0; each later chunk starts `overlap_sec` earlier than its
nominal boundary `i * dmax`, clamped to ≥ 0. -/
def chunkStart (dmax : ℕ) (ov : ℚ) (i : ℕ) : ℚ :=
  if i = 0 then 0 else max 0 ((i : ℚ) * dmax - ov)

/-- Modelled from the spec: the end of chunk `i` of `n` — the last chunk
ends at the source duration; each earlier chunk ends `overlap_sec` later
than its nominal boundary `(i+1) * dmax`, clamped to the source
duration. -/
def chunkStop (d : ℚ) (dmax : ℕ) (ov : ℚ) (n i : ℕ) : ℚ :=
  if i + 1 = n then d else min d (((i : ℚ) + 1) * dmax + ov)

/-- The chunk descriptor at index `i`. -/
def mkChunk (c : PipelineConfig) (d : ℚ) (n i : ℕ) : Chunk :=
  let dmax := effectiveMaxChunkDuration c
  let ov := c.chunkOverlapSec
  { index := i
    start := chunkStart dmax ov i
    duration := chunkStop d dmax ov n i - chunkStart dmax ov i
    expectedBytes := (chunkStop d dmax ov n i - chunkStart dmax ov i) * (bytesPerSec c : ℚ) }

/-- Modelled from the spec: `ChunkPlanner.plan` — signal `PlanningError`
when the size-derived `max_chunk_duration` computes to 0 (≤ 0 in the
spec's real-valued formulation), else walk the source duration in steps
of the effective maximum chunk duration emitting chunk descriptors. -/
def ChunkPlanner.plan (c : PipelineConfig) (a : AudioAsset) :
    Except PlanError (List Chunk) :=
  if sizeMaxChunkDuration c = 0 then .error .planningError
  else
    let n := nChunks a.duration (effectiveMaxChunkDuration c)
    .ok ((List.range n).map (mkChunk c a.duration n))

/-- A time-coded span within a transcript (`end` is reserved in Lean, so
the end time is called `stop`). -/
structure Segment where
  start : ℚ
  stop : ℚ
  text : String
  deriving DecidableEq, Repr

/-- Per-chunk transcription output: chunk index, text and chunk-local
segments. -/
structure ChunkResult where
  index : ℕ
  text : String
  segments : List Segment
  deriving DecidableEq, Repr

/-- The final merged artifact: full text and global segments. -/
structure Transcript where
  text : String
  segments : List Segment
  deriving DecidableEq, Repr

/-- Shift a chunk-local segment by the chunk's start offset to produce
global time. -/
def offsetSegment (o : ℚ) (s : Segment) : Segment :=
  { start := s.start + o, stop := s.stop + o, text := s.text }

/-- The trailing `n` characters of a string. -/
def strTail (n : ℕ) (s : String) : String := s.drop (s.length - n)

/-- Modelled from the spec: boundary deduplication — compare the trailing
`n` characters of the previous chunk's text against the leading `n`
characters of the current chunk's text; on an exact match trim the
duplicated prefix from the current chunk's text. -/
def trimHead (n : ℕ) (prev cur : String) : String :=
  if 0 < n ∧ n ≤ prev.length ∧ n ≤ cur.length ∧ strTail n prev = cur.take n then
    cur.drop n
  else cur

/-- Apply boundary deduplication along a list of chunk texts, each junction
comparing the original adjacent texts. -/
def trimTail (n : ℕ) (prev : String) : List String → List String
  | [] => []
  | t :: ts => trimHead n prev t :: trimTail n t ts

/-- Modelled from the spec: the merged full text — chunk texts concatenated
in order after boundary deduplication at each junction. -/
def mergedText (n : ℕ) : List String → String
  | [] => ""
  | t :: ts => String.join (t :: trimTail n t ts)

/-- The positions at which `pat` occurs in `s` (as a consecutive
character run, overlapping occurrences counted separately). -/
def occPositions (pat s : List Char) : Finset ℕ :=
  (Finset.range (s.length + 1)).filter (fun i => pat.isPrefixOf (s.drop i) = true)

/-- The number of (possibly overlapping) occurrences of `pat` in `s`. -/
def countOccur (pat s : List Char) : ℕ :=
  (occPositions pat s).card

/-- The merge error taxonomy member raised on a plan/result count mismatch
or a result for a missing chunk index. -/
inductive MergeError
  | mergeInconsistency
  deriving DecidableEq, Repr

/-- The global segments: each chunk's local segments shifted by the plan's
start offset, concatenated in chunk order (no re-sorting). -/
def mergedSegments (plan : List Chunk) (results : List ChunkResult) : List Segment :=
  ((plan.zip results).map (fun pr => pr.2.segments.map (offsetSegment pr.1.start))).flatten

/-- Modelled from the spec: `TranscriptMerger.merge` — raise
`MergeInconsistency` on a plan/result count mismatch or a result carrying
the wrong chunk index; otherwise concatenate deduplicated texts and
offset segments in plan order. Missing segment data is a valid degraded
mode, not an error. -/
def TranscriptMerger.merge (n : ℕ) (plan : List Chunk) (results : List ChunkResult) :
    Except MergeError Transcript :=
  if results.length = plan.length ∧
      (plan.zip results).all (fun pr => pr.2.index == pr.1.index) then
    .ok { text := mergedText n (results.map ChunkResult.text)
          segments := mergedSegments plan results }
  else .error .mergeInconsistency

/-- A progress event reported after one chunk completes: the chunk's index
and the progress value persisted afterwards. -/
structure ProgressEvent where
  chunkIndex : ℕ
  progress : ℕ
  deriving DecidableEq, Repr

/-- Modelled from the spec: `ChunkTranscriber.transcribe_all` — process the
chunks sequentially in index order (a left fold), building each
`ChunkResult` with its chunk index and reporting progress
`floor((completed / total) * 100)` after each chunk. The external
transcription capability is the function `api` from chunk index to
(text, segments). -/
def ChunkTranscriber.transcribeAll (api : ℕ → String × List Segment) (total : ℕ) :
    List ChunkResult × List ProgressEvent :=
  (List.range total).foldl
    (fun acc i =>
      (acc.1 ++ [{ index := i, text := (api i).1, segments := (api i).2 }],
       acc.2 ++ [{ chunkIndex := i, progress := (i + 1) * 100 / total }]))
    ([], [])

/-- One named phase of a job's pipeline. -/
inductive Stage
  | extract
  | preprocess
  | transcribe
  | merge
  | export
  deriving DecidableEq, Repr, Fintype

/-- Modelled from the spec: the job states of the primary pipeline plus the
side-channel `correcting` state for the optional proofread stage. -/
inductive JState
  | pending
  | processing (st : Stage)
  | correcting
  | completed
  | failed
  deriving DecidableEq, Repr, Fintype

/-- The primary pipeline status underlying a state: the side-channel
`correcting` is layered on a completed job, so its primary status is
`completed`. -/
def primaryOf : JState → JState
  | .correcting => .completed
  | s => s

/-- Rank of a state along the forward-only primary chain. -/
def primaryRank : JState → ℕ
  | .pending => 0
  | .processing .extract => 1
  | .processing .preprocess => 2
  | .processing .transcribe => 3
  | .processing .merge => 4
  | .processing .export => 5
  | .correcting => 6
  | .completed => 6
  | .failed => 7

/-- Modelled from the spec: the allowed job status transitions —
`pending → processing(extract) → processing(preprocess) →
processing(transcribe) → processing(merge) → completed`, `failed`
reachable from any processing state, and the side-channel
`completed → correcting → completed` for the optional proofread stage. -/
def jobStep : JState → JState → Bool
  | .pending, .processing .extract => true
  | .processing .extract, .processing .preprocess => true
  | .processing .preprocess, .processing .transcribe => true
  | .processing .transcribe, .processing .merge => true
  | .processing .merge, .completed => true
  | .processing _, .failed => true
  | .completed, .correcting => true
  | .correcting, .completed => true
  | _, _ => false

/-- The pipeline error taxonomy. -/
inductive PipelineError
  | encodingFailure
  | planningError
  | splitFailure
  | transcriptionError
  | mergeInconsistency
  deriving DecidableEq, Repr

/-- Modelled from the spec: which errors are transient and retried —
only `TranscriptionError`; `PlanningError` is a configuration-class error
that is never retried, and `EncodingFailure`, `SplitFailure` and
`MergeInconsistency` are fatal. -/
def retryable : PipelineError → Bool
  | .transcriptionError => true
  | _ => false

/-- Modelled from the spec: the preprocess stage — choose a strategy; on
`AS_IS` a single whole-asset chunk with no planner involvement; otherwise
compress, re-estimate, and only when the compressed asset still exceeds
the budget invoke `ChunkPlanner.plan`. Returns the chunk list together
with whether the planner was invoked. -/
def preprocessPlan (c : PipelineConfig) (a : AudioAsset) :
    Except PlanError (List Chunk × Bool) :=
  match MediaSizeEstimator.estimate c a with
  | .asIs =>
      .ok ([{ index := 0, start := 0, duration := a.duration,
              expectedBytes := (a.byteSize : ℚ) }], false)
  | _ =>
      let compressed := AudioCompressor.compress c a
      if compressed.byteSize ≤ targetUploadBytes c ∧
          durationFitsSingle c compressed.duration then
        .ok ([{ index := 0, start := 0, duration := compressed.duration,
                expectedBytes := (compressed.byteSize : ℚ) }], false)
      else
        match ChunkPlanner.plan c compressed with
        | .error e => .error e
        | .ok plan => .ok (plan, true)

/-- The outcome of one job pipeline run: terminal status, the stage at
failure (if any), whether `ChunkPlanner.plan` was invoked, and the
produced transcript (if any). -/
structure JobOutcome where
  status : JState
  failedStage : Option Stage
  plannerInvoked : Bool
  transcript : Option Transcript
  deriving Repr

/-- Modelled from the spec: one pipeline run — preprocess, sequential chunk
transcription, merge; a `PlanningError` fails the job at stage
`preprocess`, a `MergeInconsistency` at stage `merge`, and a successful
merge completes the job. -/
def runJob (c : PipelineConfig) (a : AudioAsset) (api : ℕ → String × List Segment)
    (dedupN : ℕ) : JobOutcome :=
  match preprocessPlan c a with
  | .error _ =>
      { status := .failed, failedStage := some .preprocess,
        plannerInvoked := true, transcript := none }
  | .ok (plan, used) =>
      let results := (ChunkTranscriber.transcribeAll api plan.length).1
      match TranscriptMerger.merge dedupN plan results with
      | .error _ =>
          { status := .failed, failedStage := some .merge,
            plannerInvoked := used, transcript := none }
      | .ok t =>
          { status := .completed, failedStage := none,
            plannerInvoked := used, transcript := some t }

/-! ## Frontend URL validation (from `UrlInputForm`) -/

/-- A JavaScript regular-expression line terminator, which `.` does not
match. -/
def isLineTerminator (ch : Char) : Bool :=
  ch = Char.ofNat 10 || ch = Char.ofNat 13 ||
    ch = Char.ofNat 0x2028 || ch = Char.ofNat 0x2029

/-- Strip the optional scheme group `(https?:\/\/)?`. The two scheme
spellings and the no-scheme continuation are prefix-disjoint, so the
backtracking regex is equivalent to this deterministic strip. -/
def stripScheme (s : List Char) : List Char :=
  if ("https://".toList).isPrefixOf s then s.drop 8
  else if ("http://".toList).isPrefixOf s then s.drop 7
  else s

/-- Strip the optional `(www\.)?` group (prefix-disjoint from the host
alternatives). -/
def stripWww (s : List Char) : List Char :=
  if ("www.".toList).isPrefixOf s then s.drop 4 else s

/-- Match `(youtube\.com|youtu\.be)\/` and return the remainder; the two
alternatives are prefix-disjoint, so first-match is deterministic. -/
def hostTail (s : List Char) : Option (List Char) :=
  if ("youtube.com/".toList).isPrefixOf s then some (s.drop 12)
  else if ("youtu.be/".toList).isPrefixOf s then some (s.drop 9)
  else none

/-- The test of the frontend regex
`/^(https?:\/\/)?(www\.)?(youtube\.com|youtu\.be)\/.+/` on a string:
after the optional scheme, optional `www.` and one of the two hosts
followed by `/`, at least one non-line-terminator character follows. -/
def youtubeUrlTest (url : String) : Bool :=
  match hostTail (stripWww (stripScheme url.toList)) with
  | none => false
  | some [] => false
  | some (ch :: _) => !isLineTerminator ch

/-- `validateYoutubeUrl` from `UrlInputForm`: reject the empty string, then
reject anything failing the YouTube URL regex. -/
def validateYoutubeUrl (url : String) : Bool :=
  if url = "" then false
  else youtubeUrlTest url

/-- `handleSubmit` from `UrlInputForm`: return early (no API call) unless
validation passes; `some url` stands for the `apiClient.createJob`
invocation with the entered URL. -/
def handleSubmit (url : String) : Option String :=
  if validateYoutubeUrl url then some url else none

/-! ## Persisted job status (from the schema and `JobStatus`) -/

/-- The status values admitted by the `check_status` database constraint
in the physical data model. -/
def allowedStatuses : List String :=
  ["pending", "processing", "transcribing", "correcting", "completed", "failed"]

/-- The `check_status` constraint as a predicate. -/
def checkStatus (s : String) : Bool :=
  allowedStatuses.contains s

/-- The `statusMessages` record of the `JobStatus` component: one UI
message per status value. -/
def statusMessages : List (String × String) :=
  [("pending", "処理待機中..."),
   ("processing", "音声ファイルを抽出中..."),
   ("transcribing", "文字起こし中..."),
   ("correcting", "LLMで校正中..."),
   ("completed", "処理完了"),
   ("failed", "処理失敗")]

/-- Modelled from the spec: the status-value writes performed over a job's
lifecycle (the worker implementation is absent), as pairs
(from, to) — creation at `pending`, the processing/transcribing
progression, failure from any active state, and the correcting
side-channel returning to `completed`. -/
def statusTransitions : List (String × String) :=
  [("pending", "processing"),
   ("processing", "transcribing"),
   ("transcribing", "completed"),
   ("processing", "failed"),
   ("transcribing", "failed"),
   ("completed", "correcting"),
   ("correcting", "completed"),
   ("correcting", "failed")]

/-! ## Theorems -/

/-- C10: in the job-creation form, `apiClient.createJob` is invoked exactly
when the entered URL is non-empty and passes the YouTube URL regular
expression; every input failing the check makes the submit handler return
before any API call. -/
theorem urlInputForm_createJob_guard (url : String) :
    handleSubmit url ≠ none ↔ url ≠ "" ∧ youtubeUrlTest url = true := by
  unfold handleSubmit validateYoutubeUrl
  by_cases h : url = "" <;> by_cases h2 : youtubeUrlTest url = true <;>
    simp [h, h2]

/-- C10 witness: a concrete valid URL reaches the API call and a concrete
invalid one does not. -/
theorem urlInputForm_createJob_guard_witness :
    handleSubmit "https://www.youtube.com/watch" ≠ none ∧
      ¬ handleSubmit "https://example.com/watch" ≠ none := by
  constructor
  · exact (urlInputForm_createJob_guard "https://www.youtube.com/watch").mpr
      (by constructor <;> decide)
  · intro h
    have h2 := (urlInputForm_createJob_guard "https://example.com/watch").mp h
    exact absurd h2.2 (by decide)

/-- C9: the persisted job status is a flat six-value enumeration — the
database `check_status` constraint admits exactly the six strings, the
UI's `statusMessages` record covers exactly those keys, the initial
status and every status written over the modelled lifecycle satisfy the
constraint, and no stage-qualified processing sub-state appears among
the values. -/
theorem jobStatus_flat_enum :
    allowedStatuses =
      ["pending", "processing", "transcribing", "correcting", "completed",
       "failed"] ∧
    statusMessages.map Prod.fst = allowedStatuses ∧
    checkStatus "pending" = true ∧
    (statusTransitions.all fun p => checkStatus p.1 && checkStatus p.2) = true ∧
    allowedStatuses.contains "processing(extract)" = false := by
  refine ⟨rfl, rfl, rfl, rfl, ?_⟩
  decide

/-- C7: the job state machine is monotonic forward along the primary chain
`pending → processing(extract) → … → processing(merge) → completed`;
`failed` is terminal and reachable from every processing state,
`completed` is terminal for the primary pipeline, and the correcting
side-channel never moves a completed job's primary status backward. -/
theorem jobStateMachine_monotonic_forward :
    (∀ s t, jobStep s t = true → s ≠ .completed → s ≠ .correcting →
      t ≠ .failed → primaryRank s < primaryRank t) ∧
    (∀ s t, jobStep s t = true → t ≠ .failed →
      primaryRank (primaryOf s) ≤ primaryRank (primaryOf t)) ∧
    (∀ st, jobStep (.processing st) .failed = true) ∧
    (∀ t, jobStep .failed t = false) ∧
    (∀ t, jobStep .completed t = true → primaryOf t = .completed) ∧
    jobStep .correcting .completed = true ∧ primaryOf .correcting = .completed := by
  refine ⟨?_, ?_, ?_, ?_, ?_, rfl, rfl⟩ <;> decide

/-- C7 witness: the state machine stepping facts at concrete states. -/
theorem jobStateMachine_monotonic_forward_witness :
    primaryRank (JState.processing .extract) < primaryRank (.processing .preprocess) ∧
      jobStep (.processing .transcribe) .failed = true := by
  constructor
  · exact jobStateMachine_monotonic_forward.1 (.processing .extract)
      (.processing .preprocess) (by decide) (by decide) (by decide) (by decide)
  · exact jobStateMachine_monotonic_forward.2.2.1 .transcribe

/-- A left fold that appends one element to each component per step is the
pair of maps. -/
theorem foldl_pair_append {β γ : Type} (f : ℕ → β) (g : ℕ → γ) (l : List ℕ) :
    ∀ (xs : List β) (ys : List γ),
      l.foldl (fun acc i => (acc.1 ++ [f i], acc.2 ++ [g i])) (xs, ys) =
        (xs ++ l.map f, ys ++ l.map g) := by
  induction l with
  | nil => intro xs ys; simp
  | cons a t ih => intro xs ys; simp [ih]

/-- The sequential transcription loop in closed form: results and progress
events in chunk-index order. -/
theorem transcribeAll_eq (api : ℕ → String × List Segment) (total : ℕ) :
    ChunkTranscriber.transcribeAll api total =
      ((List.range total).map fun i =>
          { index := i, text := (api i).1, segments := (api i).2 },
       (List.range total).map fun i =>
          { chunkIndex := i, progress := (i + 1) * 100 / total }) := by
  unfold ChunkTranscriber.transcribeAll
  rw [foldl_pair_append]
  simp

/-- C6: `transcribe_all` processes the chunks strictly in index order,
sequentially — the reported chunk indices are exactly `0, …, total−1` in
strictly increasing order, the `k`-th result is the API's output for
chunk `k`, and after each completed chunk the reported progress is
`floor((completed / total) * 100)`. -/
theorem chunkTranscriber_sequential_progress (api : ℕ → String × List Segment)
    (total : ℕ) :
    ((ChunkTranscriber.transcribeAll api total).2.map ProgressEvent.chunkIndex =
      List.range total) ∧
    ((ChunkTranscriber.transcribeAll api total).2.map
        ProgressEvent.chunkIndex).Pairwise (· < ·) ∧
    (∀ e ∈ (ChunkTranscriber.transcribeAll api total).2,
      e.progress = (e.chunkIndex + 1) * 100 / total) ∧
    ((ChunkTranscriber.transcribeAll api total).1 =
      (List.range total).map fun i =>
        { index := i, text := (api i).1, segments := (api i).2 }) := by
  rw [transcribeAll_eq]
  have hidx : (((List.range total).map fun i =>
      ({ chunkIndex := i, progress := (i + 1) * 100 / total } :
        ProgressEvent)).map ProgressEvent.chunkIndex) = List.range total := by
    simp [Function.comp_def]
  refine ⟨hidx, ?_, ?_, rfl⟩
  · rw [hidx]; exact List.pairwise_lt_range total
  · intro e he
    simp only [List.mem_map, List.mem_range] at he
    obtain ⟨i, _, rfl⟩ := he
    rfl

/-- C6 witness: with two chunks, the second progress report is for chunk
index 1 and reads 100%. -/
theorem chunkTranscriber_sequential_progress_witness :
    ({ chunkIndex := 1, progress := 100 } :
        ProgressEvent).progress = ((1 : ℕ) + 1) * 100 / 2 :=
  (chunkTranscriber_sequential_progress (fun _ => ("", [])) 2).2.2.1
    { chunkIndex := 1, progress := 100 } (by decide)

/-- The planner is recorded as invoked exactly when the preprocess step
reaches it. -/
theorem runJob_plannerInvoked (c : PipelineConfig) (a : AudioAsset)
    (api : ℕ → String × List Segment) (dN : ℕ) :
    (runJob c a api dN).plannerInvoked =
      match preprocessPlan c a with
      | .error _ => true
      | .ok pu => pu.2 := by
  unfold runJob
  rcases h : preprocessPlan c a with e | pu
  · simp [h]
  · obtain ⟨L, u⟩ := pu
    simp only [h]
    split <;> rfl

/-- C4: an asset within the upload budget whose duration is within the
single-chunk threshold is estimated `AS_IS` and its job never invokes
`ChunkPlanner.plan`; and any asset whose duration is within the computed
maximum chunk duration is planned as a single chunk covering `[0, D]`
with no overlap applied. -/
theorem estimator_asIs_fast_path :
    (∀ (c : PipelineConfig) (a : AudioAsset),
      a.byteSize ≤ targetUploadBytes c → durationFitsSingle c a.duration →
      MediaSizeEstimator.estimate c a = .asIs ∧
      ∀ api dN, (runJob c a api dN).plannerInvoked = false) ∧
    (∀ (c : PipelineConfig) (a : AudioAsset),
      0 < a.duration → a.duration ≤ (effectiveMaxChunkDuration c : ℚ) →
      sizeMaxChunkDuration c ≠ 0 →
      ChunkPlanner.plan c a =
        .ok [{ index := 0, start := 0, duration := a.duration,
               expectedBytes := a.duration * (bytesPerSec c : ℚ) }]) := by
  constructor
  · intro c a h1 h2
    have hest : MediaSizeEstimator.estimate c a = .asIs := by
      unfold MediaSizeEstimator.estimate
      rw [if_pos ⟨h1, h2⟩]
    refine ⟨hest, ?_⟩
    intro api dN
    rw [runJob_plannerInvoked]
    unfold preprocessPlan
    rw [hest]
  · intro c a h0 h2 h3
    have hdm : 0 < effectiveMaxChunkDuration c := by
      have hsz : 0 < sizeMaxChunkDuration c := Nat.pos_of_ne_zero h3
      unfold effectiveMaxChunkDuration
      split
      · next h4 => exact Nat.lt_min.mpr ⟨hsz, by omega⟩
      · exact hsz
    have hdmQ : (0 : ℚ) < (effectiveMaxChunkDuration c : ℚ) := by
      exact_mod_cast hdm
    have hn : nChunks a.duration (effectiveMaxChunkDuration c) = 1 := by
      unfold nChunks
      have hc : ⌈a.duration / (effectiveMaxChunkDuration c : ℚ)⌉ = 1 := by
        rw [Int.ceil_eq_iff]
        constructor
        · norm_num
          exact div_pos h0 hdmQ
        · push_cast
          rw [div_le_one hdmQ]
          exact h2
      rw [hc]
      rfl
    unfold ChunkPlanner.plan
    rw [if_neg h3]
    simp [hn, mkChunk, chunkStart, chunkStop, List.range_succ]

/-- C4 witness: a 600-second asset of 10 MB under the default
configuration is `AS_IS`, the planner is not invoked, and the plan for a
600-second asset is the single chunk `[0, 600]`. -/
theorem estimator_asIs_fast_path_witness :
    MediaSizeEstimator.estimate defaultConfig { duration := 600, byteSize := 10485760 } =
      .asIs ∧
    (runJob defaultConfig { duration := 600, byteSize := 10485760 }
        (fun _ => ("", [])) 40).plannerInvoked = false ∧
    ChunkPlanner.plan defaultConfig { duration := 600, byteSize := 10485760 } =
      .ok [{ index := 0, start := 0, duration := 600,
             expectedBytes := 600 * (bytesPerSec defaultConfig : ℚ) }] := by
  obtain ⟨hest, hrun⟩ := estimator_asIs_fast_path.1 defaultConfig
    { duration := 600, byteSize := 10485760 } (by decide)
    (by right; norm_num [defaultConfig])
  refine ⟨hest, hrun _ _, ?_⟩
  exact estimator_asIs_fast_path.2 defaultConfig
    { duration := 600, byteSize := 10485760 } (by norm_num)
    (by rw [show effectiveMaxChunkDuration defaultConfig = 900 from by decide]; norm_num)
    (by decide)

/-- C5: with a degenerate configuration whose computed
`max_chunk_duration` is 0, `ChunkPlanner.plan` signals `PlanningError`
for every asset, the error is classified as never retryable, and a job
whose preprocessing reaches the planner fails with stage `preprocess`. -/
theorem planningError_fatal (c : PipelineConfig)
    (hdeg : sizeMaxChunkDuration c = 0) :
    (∀ a, ChunkPlanner.plan c a = .error .planningError) ∧
    retryable .planningError = false ∧
    (∀ a api dN, MediaSizeEstimator.estimate c a ≠ .asIs →
      ¬((AudioCompressor.compress c a).byteSize ≤ targetUploadBytes c ∧
        durationFitsSingle c (AudioCompressor.compress c a).duration) →
      (runJob c a api dN).status = .failed ∧
      (runJob c a api dN).failedStage = some .preprocess) := by
  have hplan : ∀ a, ChunkPlanner.plan c a = .error .planningError := by
    intro a
    unfold ChunkPlanner.plan
    rw [if_pos hdeg]
  refine ⟨hplan, rfl, ?_⟩
  intro a api dN hneq hnofit
  have hpre : preprocessPlan c a = .error .planningError := by
    unfold preprocessPlan
    rcases hest : MediaSizeEstimator.estimate c a with _ | _ | _
    · exact absurd hest hneq
    · simp only [hest]
      rw [if_neg hnofit, hplan]
    · simp only [hest]
      rw [if_neg hnofit, hplan]
  constructor <;> simp [runJob, hpre]

/-- C5 witness: with `TARGET_UPLOAD_MB = 0` (degenerate target) a
10-second 1000-byte asset cannot fit, the planner errors, and the job
fails at stage `preprocess`. -/
theorem planningError_fatal_witness :
    ChunkPlanner.plan
        { maxUploadMB := 25, targetUploadMB := 0, audioBitrateKbps := 48,
          chunkOverlapSec := 4/5, maxSingleChunkSec := 900 }
        { duration := 10, byteSize := 1000 } = .error .planningError ∧
    (runJob
        { maxUploadMB := 25, targetUploadMB := 0, audioBitrateKbps := 48,
          chunkOverlapSec := 4/5, maxSingleChunkSec := 900 }
        { duration := 10, byteSize := 1000 } (fun _ => ("", [])) 40).status =
      .failed ∧
    (runJob
        { maxUploadMB := 25, targetUploadMB := 0, audioBitrateKbps := 48,
          chunkOverlapSec := 4/5, maxSingleChunkSec := 900 }
        { duration := 10, byteSize := 1000 } (fun _ => ("", [])) 40).failedStage =
      some .preprocess := by
  obtain ⟨h1, _, h3⟩ := planningError_fatal
    { maxUploadMB := 25, targetUploadMB := 0, audioBitrateKbps := 48,
      chunkOverlapSec := 4/5, maxSingleChunkSec := 900 } (by decide)
  have hby : (AudioCompressor.compress
      { maxUploadMB := 25, targetUploadMB := 0, audioBitrateKbps := 48,
        chunkOverlapSec := 4/5, maxSingleChunkSec := 900 }
      { duration := 10, byteSize := 1000 }).byteSize = 60000 := by
    unfold AudioCompressor.compress bytesPerSec
    norm_num
    decide
  obtain ⟨h4, h5⟩ := h3 { duration := 10, byteSize := 1000 } (fun _ => ("", [])) 40
    (by decide)
    (by
      rintro ⟨hb, -⟩
      rw [hby] at hb
      exact absurd hb (by decide))
  exact ⟨h1 _, h4, h5⟩

/-- A successful plan is the walk over the chunk indices. -/
theorem plan_ok_shape (c : PipelineConfig) (a : AudioAsset) (L : List Chunk)
    (h : ChunkPlanner.plan c a = .ok L) :
    L = (List.range (nChunks a.duration (effectiveMaxChunkDuration c))).map
        (mkChunk c a.duration (nChunks a.duration (effectiveMaxChunkDuration c))) := by
  unfold ChunkPlanner.plan at h
  split at h
  · cases h
  · exact (Except.ok.inj h).symm

/-- Every chunk list produced by the preprocess step carries its position
as its chunk index. -/
theorem preprocessPlan_index (c : PipelineConfig) (a : AudioAsset)
    (L : List Chunk) (u : Bool) (h : preprocessPlan c a = .ok (L, u)) :
    ∀ k (hk : k < L.length), (L.get ⟨k, hk⟩).index = k := by
  have hsingle : ∀ (ch : Chunk), ch.index = 0 →
      ∀ k (hk : k < ([ch] : List Chunk).length),
        (([ch] : List Chunk).get ⟨k, hk⟩).index = k := by
    intro ch hch k hk
    have hk0 : k = 0 := by simpa using hk
    subst hk0
    simpa using hch
  rcases hest : MediaSizeEstimator.estimate c a with _ | _ | _ <;>
    simp only [preprocessPlan, hest, Except.ok.injEq, Prod.mk.injEq] at h
  · obtain ⟨hL, -⟩ := h
    subst hL
    exact hsingle _ rfl
  all_goals {
    split at h
    · simp only [Except.ok.injEq, Prod.mk.injEq] at h
      obtain ⟨hL, -⟩ := h
      subst hL
      exact hsingle _ rfl
    · rcases hp : ChunkPlanner.plan c (AudioCompressor.compress c a) with e | P <;>
        rw [hp] at h
      · simp at h
      · simp only [Except.ok.injEq, Prod.mk.injEq] at h
        obtain ⟨hL, -⟩ := h
        subst hL
        intro k hk
        have hshape := plan_ok_shape _ _ _ hp
        subst hshape
        simp [mkChunk]
  }

/-- The merger succeeds whenever counts match and each result carries its
plan entry's chunk index. -/
theorem merge_ok_of_match (dN : ℕ) (plan : List Chunk) (results : List ChunkResult)
    (hlen : results.length = plan.length)
    (hidx : ∀ k (hk : k < plan.length) (hk2 : k < results.length),
      (results.get ⟨k, hk2⟩).index = (plan.get ⟨k, hk⟩).index) :
    TranscriptMerger.merge dN plan results =
      .ok { text := mergedText dN (results.map ChunkResult.text),
            segments := mergedSegments plan results } := by
  unfold TranscriptMerger.merge
  rw [if_pos]
  refine ⟨hlen, ?_⟩
  rw [List.all_eq_true]
  intro pr hpr
  rw [List.mem_iff_getElem] at hpr
  obtain ⟨k, hk, rfl⟩ := hpr
  have hk1 : k < plan.length := by
    rw [List.length_zip] at hk
    omega
  have hk2 : k < results.length := by
    rw [List.length_zip] at hk
    omega
  rw [List.getElem_zip]
  simpa [beq_iff_eq] using hidx k hk1 hk2

/-- Merged segments are empty when no result carries segment data. -/
theorem mergedSegments_nil (plan : List Chunk) (results : List ChunkResult)
    (h : ∀ r ∈ results, r.segments = []) :
    mergedSegments plan results = [] := by
  unfold mergedSegments
  rw [List.flatten_eq_nil_iff]
  intro l hl
  rw [List.mem_map] at hl
  obtain ⟨⟨p, r⟩, hpr, rfl⟩ := hl
  rw [h r (List.of_mem_zip hpr).2]
  rfl

/-- C8: a run whose transcription results provide no segment data still
merges successfully — the Transcript carries the concatenated
(deduplicated) text and empty segments, no `MergeInconsistency` is
raised, and the job completes rather than fails. -/
theorem merge_degraded_no_segments (c : PipelineConfig) (a : AudioAsset)
    (api : ℕ → String × List Segment) (dN : ℕ) (L : List Chunk) (u : Bool)
    (hpre : preprocessPlan c a = .ok (L, u))
    (hnoseg : ∀ i, (api i).2 = []) :
    TranscriptMerger.merge dN L ((ChunkTranscriber.transcribeAll api L.length).1) =
      .ok { text := mergedText dN ((List.range L.length).map fun i => (api i).1),
            segments := [] } ∧
    (runJob c a api dN).status = .completed ∧
    (runJob c a api dN).failedStage = none ∧
    (runJob c a api dN).transcript =
      some { text := mergedText dN ((List.range L.length).map fun i => (api i).1),
             segments := [] } := by
  have hres : (ChunkTranscriber.transcribeAll api L.length).1 =
      (List.range L.length).map fun i =>
        { index := i, text := (api i).1, segments := (api i).2 } := by
    rw [transcribeAll_eq]
  have htext : (ChunkTranscriber.transcribeAll api L.length).1.map ChunkResult.text =
      (List.range L.length).map fun i => (api i).1 := by
    rw [hres]
    simp [Function.comp_def]
  have hsegs : mergedSegments L ((ChunkTranscriber.transcribeAll api L.length).1) = [] := by
    apply mergedSegments_nil
    intro r hr
    rw [hres] at hr
    simp only [List.mem_map, List.mem_range] at hr
    obtain ⟨i, -, rfl⟩ := hr
    exact hnoseg i
  have hmerge : TranscriptMerger.merge dN L
      ((ChunkTranscriber.transcribeAll api L.length).1) =
      .ok { text := mergedText dN ((List.range L.length).map fun i => (api i).1),
            segments := [] } := by
    rw [merge_ok_of_match, htext, hsegs]
    · rw [hres]
      simp
    · intro k hk hk2
      rw [preprocessPlan_index c a L u hpre k hk]
      have h1 : ((ChunkTranscriber.transcribeAll api L.length).1)[k]? =
          some { index := k, text := (api k).1, segments := (api k).2 } := by
        rw [hres]
        rw [List.getElem?_map]
        rw [List.getElem?_range (by simpa using hk)]
        rfl
      have h3 := List.getElem?_eq_getElem hk2
      rw [h1] at h3
      have h4 := Option.some.inj h3
      rw [List.get_eq_getElem, ← h4]
  refine ⟨hmerge, ?_, ?_, ?_⟩ <;> simp [runJob, hpre, hmerge]

/-- C8 witness: a 600-second AS_IS asset transcribed by an API returning
text but no segments completes with an empty-segment transcript. -/
theorem merge_degraded_no_segments_witness :
    (runJob defaultConfig { duration := 600, byteSize := 10485760 }
        (fun _ => ("hello", [])) 40).status = .completed ∧
    (runJob defaultConfig { duration := 600, byteSize := 10485760 }
        (fun _ => ("hello", [])) 40).failedStage = none := by
  have hest : MediaSizeEstimator.estimate defaultConfig
      { duration := 600, byteSize := 10485760 } = .asIs := by
    unfold MediaSizeEstimator.estimate
    rw [if_pos]
    exact ⟨by decide, by right; norm_num [defaultConfig]⟩
  have hpre : preprocessPlan defaultConfig { duration := 600, byteSize := 10485760 } =
      .ok ([{ index := 0, start := 0, duration := 600,
              expectedBytes := ((10485760 : ℕ) : ℚ) }], false) := by
    unfold preprocessPlan
    rw [hest]
  have h := merge_degraded_no_segments defaultConfig
    { duration := 600, byteSize := 10485760 } (fun _ => ("hello", [])) 40
    [{ index := 0, start := 0, duration := 600,
       expectedBytes := ((10485760 : ℕ) : ℚ) }] false hpre (fun _ => rfl)
  exact ⟨h.2.1, h.2.2.1⟩

/-- Membership in the occurrence-position set, in terms of list prefixes. -/
theorem mem_occPositions {pat s : List Char} {i : ℕ} :
    i ∈ occPositions pat s ↔ i ≤ s.length ∧ pat <+: s.drop i := by
  unfold occPositions
  rw [Finset.mem_filter, Finset.mem_range]
  simp [Nat.lt_succ_iff]

/-- C3 counterexample: with dedup window 2, chunk texts "abab" and "abcd"
have matching junction text "ab"; the trimmed merge is "ababcd", in which
the shared text occurs twice, not exactly once. -/
theorem mergedText_shared_once_cex :
    strTail 2 "abab" = "abcd".take 2 ∧
    mergedText 2 ["abab", "abcd"] = "ababcd" ∧
    countOccur (strTail 2 "abab").data ("ababcd").data = 2 := by
  refine ⟨by decide, by decide, by decide⟩

/-- C3 (amended): when the trailing `n` characters of chunk i's text equal
the leading `n` characters of chunk i+1's text, the merger trims the
duplicated prefix, so the merged text is `a ++ b.drop n`; the naive
concatenation contains the shared text at least twice, the trimmed merge
at least once, and exactly once when the junction position is its only
occurrence. -/
theorem mergedText_dedup (n : ℕ) (a b : String)
    (hn : 0 < n) (ha : n ≤ a.length) (hb : n ≤ b.length)
    (hmatch : strTail n a = b.take n) :
    mergedText n [a, b] = a ++ b.drop n ∧
    2 ≤ countOccur (strTail n a).data (a ++ b).data ∧
    1 ≤ countOccur (strTail n a).data (a ++ b.drop n).data ∧
    ((∀ i ∈ occPositions (strTail n a).data (a ++ b.drop n).data,
        i = a.length - n) →
      countOccur (strTail n a).data (a ++ b.drop n).data = 1) := by
  have hlA : a.length = a.data.length := rfl
  have hlB : b.length = b.data.length := rfl
  have hSdef : (strTail n a).data = a.data.drop (a.length - n) := by
    unfold strTail
    simp
  have hSlen : (strTail n a).data.length = n := by
    rw [hSdef, List.length_drop]
    omega
  have hS2 : (strTail n a).data = b.data.take n := by
    rw [hmatch]
    simp
  have hdrop1 : (a.data ++ b.data).drop (a.length - n) =
      (strTail n a).data ++ b.data := by
    rw [List.drop_append_eq_append_drop]
    have h0 : (a.length - n) - a.data.length = 0 := by omega
    rw [h0, List.drop_zero, hSdef]
  have hdrop1' : (a.data ++ (b.drop n).data).drop (a.length - n) =
      (strTail n a).data ++ (b.drop n).data := by
    rw [List.drop_append_eq_append_drop]
    have h0 : (a.length - n) - a.data.length = 0 := by omega
    rw [h0, List.drop_zero, hSdef]
  have hmem1 : (a.length - n) ∈ occPositions (strTail n a).data (a ++ b).data := by
    rw [mem_occPositions]
    constructor
    · simp only [String.data_append, List.length_append]
      omega
    · rw [String.data_append, hdrop1]
      exact List.prefix_append _ _
  have hmem2 : a.length ∈ occPositions (strTail n a).data (a ++ b).data := by
    rw [mem_occPositions]
    constructor
    · simp only [String.data_append, List.length_append]
      omega
    · have hdrop2 : (a.data ++ b.data).drop a.length = b.data := by
        rw [List.drop_append_eq_append_drop]
        have h1 : a.data.drop a.length = [] := by
          rw [List.drop_eq_nil_iff]
          omega
        have h2 : a.length - a.data.length = 0 := by omega
        rw [h1, h2, List.drop_zero, List.nil_append]
      rw [String.data_append, hdrop2, hS2]
      exact List.take_prefix n b.data
  have hmem1' : (a.length - n) ∈
      occPositions (strTail n a).data (a ++ b.drop n).data := by
    rw [mem_occPositions]
    constructor
    · simp only [String.data_append, List.length_append]
      omega
    · rw [String.data_append, hdrop1']
      exact List.prefix_append _ _
  refine ⟨?_, ?_, ?_, ?_⟩
  · simp only [mergedText, trimTail, trimHead]
    rw [if_pos ⟨hn, ha, hb, hmatch⟩]
    apply String.ext
    simp
  · have h2 : 1 < countOccur (strTail n a).data (a ++ b).data := by
      unfold countOccur
      rw [Finset.one_lt_card_iff]
      exact ⟨a.length - n, a.length, hmem1, hmem2, by omega⟩
    omega
  · have h1 : 0 < countOccur (strTail n a).data (a ++ b.drop n).data := by
      unfold countOccur
      rw [Finset.card_pos]
      exact ⟨a.length - n, hmem1'⟩
    omega
  · intro huniq
    unfold countOccur
    rw [Finset.eq_singleton_iff_unique_mem.mpr ⟨hmem1', huniq⟩]
    exact Finset.card_singleton _

/-- C3 witness: with window 2 on "xab" and "abz", the merged text is
"xabz" and the shared text "ab" occurs in it exactly once. -/
theorem mergedText_dedup_witness :
    mergedText 2 ["xab", "abz"] = "xab" ++ "abz".drop 2 ∧
    countOccur (strTail 2 "xab").data ("xab" ++ "abz".drop 2).data = 1 := by
  have h := mergedText_dedup 2 "xab" "abz" (by decide) (by decide) (by decide)
    (by decide)
  exact ⟨h.1, h.2.2.2 (by decide)⟩

/-- Every merged segment's start is bounded below by any lower bound of the
participating chunks' start offsets (segment-local starts being
non-negative). -/
theorem flatten_lower (P : List (Chunk × ChunkResult)) (o : ℚ)
    (h0 : ∀ pr ∈ P, ∀ s ∈ pr.2.segments, 0 ≤ s.start)
    (ho : ∀ pr ∈ P, o ≤ pr.1.start) :
    ∀ y ∈ (P.map fun pr => pr.2.segments.map (offsetSegment pr.1.start)).flatten,
      o ≤ y.start := by
  intro y hy
  rw [List.mem_flatten] at hy
  obtain ⟨l, hl, hyl⟩ := hy
  rw [List.mem_map] at hl
  obtain ⟨pr, hpr, rfl⟩ := hl
  rw [List.mem_map] at hyl
  obtain ⟨s, hs, rfl⟩ := hyl
  have h1 := h0 pr hpr s hs
  have h2 := ho pr hpr
  show o ≤ s.start + pr.1.start
  linarith

/-- Offset-concatenated segments are chained non-decreasing in start time
when each chunk's local segments are, chunk start offsets are
non-decreasing, local starts are non-negative and bounded by the offset
gap to the next chunk. -/
theorem segsChain_flatten : ∀ (P : List (Chunk × ChunkResult)),
    (∀ pr ∈ P, List.Chain' (fun s t => s.start ≤ t.start) pr.2.segments) →
    (∀ pr ∈ P, ∀ s ∈ pr.2.segments, 0 ≤ s.start) →
    List.Chain' (· ≤ ·) (P.map fun pr => pr.1.start) →
    (∀ k (hk : k + 1 < P.length),
      ∀ s ∈ (P.get ⟨k, Nat.lt_of_succ_lt hk⟩).2.segments,
        s.start ≤ (P.get ⟨k + 1, hk⟩).1.start -
          (P.get ⟨k, Nat.lt_of_succ_lt hk⟩).1.start) →
    List.Chain' (fun s t => s.start ≤ t.start)
      ((P.map fun pr => pr.2.segments.map (offsetSegment pr.1.start)).flatten)
  | [] => by
    intro _ _ _ _
    simp
  | p :: rest => by
    intro hmono h0 hoff hgap
    simp only [List.map_cons, List.flatten_cons]
    rw [List.chain'_append]
    refine ⟨?_, ?_, ?_⟩
    · rw [List.chain'_map]
      apply (hmono p (by simp)).imp
      intro s t hst
      show s.start + p.1.start ≤ t.start + p.1.start
      linarith
    · apply segsChain_flatten rest
      · intro pr hpr
        exact hmono pr (List.mem_cons_of_mem _ hpr)
      · intro pr hpr
        exact h0 pr (List.mem_cons_of_mem _ hpr)
      · rw [List.map_cons] at hoff
        exact hoff.tail
      · intro k hk s hs
        exact hgap (k + 1) (Nat.succ_lt_succ hk) s hs
    · intro x hx y hy
      cases rest with
      | nil => simp at hy
      | cons q rest2 =>
        have hx2 := List.mem_of_mem_getLast? hx
        rw [List.mem_map] at hx2
        obtain ⟨s, hs, rfl⟩ := hx2
        have hy2 := List.mem_of_mem_head? hy
        have hgap0 := hgap 0 (by simp) s hs
        have hq : ∀ pr ∈ (q :: rest2), q.1.start ≤ pr.1.start := by
          intro pr hpr
          rcases List.mem_cons.mp hpr with h | hpr2
          · rw [h]
          · have hoff2 : List.Chain' (· ≤ ·)
                ((q :: rest2).map fun pr => pr.1.start) := by
              rw [List.map_cons] at hoff
              exact hoff.tail
            have hpw := List.chain'_iff_pairwise.mp hoff2
            rw [List.map_cons, List.pairwise_cons] at hpw
            exact hpw.1 pr.1.start (List.mem_map_of_mem _ hpr2)
        have hylow := flatten_lower (q :: rest2) q.1.start
          (fun pr hpr => h0 pr (List.mem_cons_of_mem _ hpr)) hq y hy2
        show s.start + p.1.start ≤ y.start
        have : s.start ≤ q.1.start - p.1.start := hgap0
        linarith

/-- C2 (amended): the merger shifts every segment of chunk `i` by exactly
the plan's start offset `o_i`, and the merged global segments are
non-decreasing in start time provided additionally that the plan's start
offsets are non-decreasing, the chunk-local starts are non-negative, and
no chunk's local segment start exceeds the offset gap to the next chunk
(segments reaching into the duplicated overlap span can break
monotonicity). -/
theorem transcriptMerger_offset_monotonic (dN : ℕ) (plan : List Chunk)
    (results : List ChunkResult)
    (hlen : results.length = plan.length)
    (hidx : ∀ k (hk : k < plan.length) (hk2 : k < results.length),
      (results.get ⟨k, hk2⟩).index = (plan.get ⟨k, hk⟩).index)
    (hmono : ∀ r ∈ results, List.Chain' (fun s t => s.start ≤ t.start) r.segments)
    (h0 : ∀ r ∈ results, ∀ s ∈ r.segments, 0 ≤ s.start)
    (hoff : List.Chain' (· ≤ ·) (plan.map Chunk.start))
    (hgap : ∀ k (hk : k + 1 < plan.length) (hk2 : k < results.length),
      ∀ s ∈ (results.get ⟨k, hk2⟩).segments,
        s.start ≤ (plan.get ⟨k + 1, hk⟩).start -
          (plan.get ⟨k, Nat.lt_of_succ_lt hk⟩).start) :
    TranscriptMerger.merge dN plan results =
      .ok { text := mergedText dN (results.map ChunkResult.text),
            segments := mergedSegments plan results } ∧
    (∀ k (hk : k < plan.length) (hk2 : k < results.length),
      ∀ s ∈ (results.get ⟨k, hk2⟩).segments,
        offsetSegment (plan.get ⟨k, hk⟩).start s ∈ mergedSegments plan results) ∧
    List.Chain' (fun s t => s.start ≤ t.start) (mergedSegments plan results) := by
  have hmapfst : (plan.zip results).map Prod.fst = plan :=
    List.map_fst_zip _ _ (by omega)
  have hzlen : (plan.zip results).length = plan.length := by
    rw [List.length_zip]
    omega
  have hzget : ∀ k (hk : k < plan.length) (hk2 : k < results.length)
      (hkz : k < (plan.zip results).length),
      (plan.zip results).get ⟨k, hkz⟩ =
        (plan.get ⟨k, hk⟩, results.get ⟨k, hk2⟩) := by
    intro k hk hk2 hkz
    simp [List.get_eq_getElem, List.getElem_zip]
  refine ⟨merge_ok_of_match dN plan results hlen hidx, ?_, ?_⟩
  · intro k hk hk2 s hs
    unfold mergedSegments
    rw [List.mem_flatten]
    refine ⟨(results.get ⟨k, hk2⟩).segments.map
      (offsetSegment (plan.get ⟨k, hk⟩).start), ?_, List.mem_map_of_mem _ hs⟩
    rw [List.mem_map]
    refine ⟨(plan.get ⟨k, hk⟩, results.get ⟨k, hk2⟩), ?_, rfl⟩
    rw [← hzget k hk hk2 (by omega)]
    exact List.get_mem _ _ _
  · unfold mergedSegments
    apply segsChain_flatten
    · intro pr hpr
      exact hmono pr.2 (List.of_mem_zip hpr).2
    · intro pr hpr
      exact h0 pr.2 (List.of_mem_zip hpr).2
    · have h1 : List.Chain' (fun x y : Chunk => x.start ≤ y.start) plan :=
        (List.chain'_map Chunk.start).mp hoff
      have h2 : List.Chain' (fun x y : Chunk => x.start ≤ y.start)
          ((plan.zip results).map Prod.fst) := by
        rw [hmapfst]
        exact h1
      exact (List.chain'_map (fun pr : Chunk × ChunkResult => pr.1.start)).mpr
        ((List.chain'_map Prod.fst).mp h2)
    · intro k hk s hs
      have hkp : k + 1 < plan.length := by omega
      have hk2 : k < results.length := by omega
      have hk2' : k + 1 < results.length := by omega
      rw [hzget k (Nat.lt_of_succ_lt hkp) hk2 (Nat.lt_of_succ_lt hk)] at hs
      rw [hzget k (Nat.lt_of_succ_lt hkp) hk2 (Nat.lt_of_succ_lt hk),
        hzget (k + 1) hkp hk2' hk]
      exact hgap k hkp hk2 s hs

/-- C2 counterexample: a planner-produced two-chunk plan for a 1000-second
source (overlapping chunks `[0, 900.8]` and `[899.2, 1000]`) and results
whose chunk-local segment times are non-decreasing, yet the merged global
segments are not non-decreasing in start time: chunk 0 carries a segment
in the overlap span starting at local 900 (global 900) and chunk 1 one
at local 0 (global 899.2). -/
theorem transcriptMerger_monotonic_cex :
    ChunkPlanner.plan defaultConfig { duration := 1000, byteSize := 30000000 } =
      .ok [{ index := 0, start := 0, duration := 4504/5, expectedBytes := 5404800 },
           { index := 1, start := 4496/5, duration := 504/5, expectedBytes := 604800 }] ∧
    (∀ r ∈ [({ index := 0, text := "x",
                segments := [{ start := 900, stop := 1801/2, text := "s" }] } :
              ChunkResult),
            { index := 1, text := "y",
              segments := [{ start := 0, stop := 1/2, text := "t" }] }],
      List.Chain' (fun s t => s.start ≤ t.start) r.segments) ∧
    TranscriptMerger.merge 40
        [{ index := 0, start := 0, duration := 4504/5, expectedBytes := 5404800 },
         { index := 1, start := 4496/5, duration := 504/5, expectedBytes := 604800 }]
        [{ index := 0, text := "x",
           segments := [{ start := 900, stop := 1801/2, text := "s" }] },
         { index := 1, text := "y",
           segments := [{ start := 0, stop := 1/2, text := "t" }] }] =
      .ok { text := mergedText 40 ["x", "y"],
            segments := [{ start := 900, stop := 1801/2, text := "s" },
                         { start := 4496/5, stop := 8997/10, text := "t" }] } ∧
    ¬ List.Chain' (fun s t => s.start ≤ t.start)
        [({ start := 900, stop := 1801/2, text := "s" } : Segment),
         { start := 4496/5, stop := 8997/10, text := "t" }] := by
  have hdm : effectiveMaxChunkDuration defaultConfig = 900 := by decide
  have hbp : bytesPerSec defaultConfig = 6000 := by decide
  have hn : nChunks (1000 : ℚ) 900 = 2 := by
    unfold nChunks
    have hc : ⌈(1000 : ℚ) / (900 : ℕ)⌉ = 2 := by
      rw [Int.ceil_eq_iff]
      push_cast
      norm_num
    rw [hc]
    rfl
  refine ⟨?_, ?_, ?_, ?_⟩
  · unfold ChunkPlanner.plan
    rw [if_neg (by decide)]
    simp only [hdm, hn, List.range_succ, List.range_zero, List.map_nil,
      List.map_append, List.map_cons, List.nil_append]
    unfold mkChunk chunkStart chunkStop
    rw [hdm, hbp]
    norm_num [min_def, max_def, defaultConfig]
  · intro r hr
    rcases List.mem_cons.mp hr with h | hr2
    · rw [h]
      exact List.chain'_singleton _
    · rcases List.mem_cons.mp hr2 with h | hr3
      · rw [h]
        exact List.chain'_singleton _
      · simp at hr3
  · rw [merge_ok_of_match]
    · unfold mergedSegments
      simp only [List.zip_cons_cons, List.zip_nil_right, List.map_cons,
        List.map_nil, List.flatten]
      unfold offsetSegment
      norm_num
    · rfl
    · intro k hk hk2
      have hk3 : k < 2 := by simpa using hk
      interval_cases k <;> rfl
  · intro h
    rw [List.chain'_cons] at h
    have := h.1
    simp only [] at this
    norm_num at this

/-- C2 witness: a two-chunk plan with offsets 0 and 10 and in-bound local
segments merges to globally non-decreasing segments. -/
theorem transcriptMerger_offset_monotonic_witness :
    List.Chain' (fun s t => s.start ≤ t.start)
      (mergedSegments
        [{ index := 0, start := 0, duration := 10, expectedBytes := 0 },
         { index := 1, start := 10, duration := 10, expectedBytes := 0 }]
        [{ index := 0, text := "a",
           segments := [{ start := 1, stop := 2, text := "s" }] },
         { index := 1, text := "b",
           segments := [{ start := 0, stop := 1, text := "t" }] }]) := by
  have h := transcriptMerger_offset_monotonic 40
    [{ index := 0, start := 0, duration := 10, expectedBytes := 0 },
     { index := 1, start := 10, duration := 10, expectedBytes := 0 }]
    [{ index := 0, text := "a",
       segments := [{ start := 1, stop := 2, text := "s" }] },
     { index := 1, text := "b",
       segments := [{ start := 0, stop := 1, text := "t" }] }]
    rfl
    (by
      intro k hk hk2
      have hk3 : k < 2 := by simpa using hk
      interval_cases k <;> rfl)
    (by
      intro r hr
      fin_cases hr <;> exact List.chain'_singleton _)
    (by
      intro r hr
      fin_cases hr <;>
        (intro s hs
         simp only [List.mem_singleton] at hs
         subst hs) <;>
        norm_num)
    (by
      simp only [List.map_cons, List.map_nil]
      refine List.chain'_cons.mpr ⟨by norm_num, List.chain'_singleton _⟩)
    (by
      intro k hk hk2
      have hk4 : k + 1 < 2 := by simpa using hk
      have hk3 : k = 0 := by omega
      subst hk3
      intro s hs
      simp at hs
      subst hs
      norm_num)
  exact h.2.2

/-- A non-degenerate configuration has a positive effective chunk
duration. -/
theorem effectiveMax_pos (c : PipelineConfig) (h : sizeMaxChunkDuration c ≠ 0) :
    0 < effectiveMaxChunkDuration c := by
  have hsz : 0 < sizeMaxChunkDuration c := Nat.pos_of_ne_zero h
  unfold effectiveMaxChunkDuration
  split
  · next h4 => exact Nat.lt_min.mpr ⟨hsz, by omega⟩
  · exact hsz

/-- C1 (amended): for a non-degenerate configuration with
`0 ≤ overlap ≤ max_chunk_duration` and a positive-duration asset, the
plan is non-empty, every chunk interval lies in `[0, D]` and their union
covers `[0, D]` exactly with no gap, the final chunk's end equals the
source duration exactly, and at every junction not clamped by the source
end the chunks overlap by exactly `2 * overlap_sec` — that is,
`chunk[i+1].start = chunk[i].start + chunk[i].duration − 2·overlap` and
`chunk[i].end − chunk[i+1].start = 2·overlap` (the overlap is attached on
both sides of each inner boundary). -/
theorem chunkPlanner_contiguity (c : PipelineConfig) (a : AudioAsset)
    (hdeg : sizeMaxChunkDuration c ≠ 0) (hD : 0 < a.duration)
    (hov0 : 0 ≤ c.chunkOverlapSec)
    (hovle : c.chunkOverlapSec ≤ (effectiveMaxChunkDuration c : ℚ)) :
    ∃ L, ChunkPlanner.plan c a = .ok L ∧ 0 < L.length ∧
      (∀ k (hk : k + 1 < L.length),
        ((k : ℚ) + 1) * (effectiveMaxChunkDuration c : ℚ) +
            c.chunkOverlapSec ≤ a.duration →
          (L.get ⟨k + 1, hk⟩).start =
            (L.get ⟨k, Nat.lt_of_succ_lt hk⟩).start +
              (L.get ⟨k, Nat.lt_of_succ_lt hk⟩).duration -
              2 * c.chunkOverlapSec ∧
          (L.get ⟨k, Nat.lt_of_succ_lt hk⟩).stop - (L.get ⟨k + 1, hk⟩).start =
            2 * c.chunkOverlapSec) ∧
      (∀ q : ℚ, (0 ≤ q ∧ q ≤ a.duration) ↔
        ∃ j, ∃ hj : j < L.length,
          (L.get ⟨j, hj⟩).start ≤ q ∧ q ≤ (L.get ⟨j, hj⟩).stop) ∧
      ∀ hne : L ≠ [], (L.getLast hne).stop = a.duration := by
  have hdm : 0 < effectiveMaxChunkDuration c := effectiveMax_pos c hdeg
  have hdmQ : (0 : ℚ) < (effectiveMaxChunkDuration c : ℚ) := by exact_mod_cast hdm
  set D := a.duration with hDdef
  set ov := c.chunkOverlapSec with hovdef
  set m := effectiveMaxChunkDuration c with hmdef
  set n := nChunks D m with hndef
  have hceil_pos : 0 < ⌈D / (m : ℚ)⌉ := Int.ceil_pos.mpr (div_pos hD hdmQ)
  have hnz : (n : ℤ) = ⌈D / (m : ℚ)⌉ := by
    rw [hndef]
    unfold nChunks
    exact Int.toNat_of_nonneg (le_of_lt hceil_pos)
  have hn_pos : 0 < n := by omega
  have hDle : D ≤ (n : ℚ) * m := by
    have h1 : D / (m : ℚ) ≤ ((n : ℕ) : ℚ) := by
      have h2 := Int.le_ceil (D / (m : ℚ))
      rw [← hnz] at h2
      exact_mod_cast h2
    exact (div_le_iff₀ hdmQ).mp h1
  have hlt : ((n : ℚ) - 1) * m < D := by
    have h2 : (⌈D / (m : ℚ)⌉ : ℚ) < D / m + 1 := Int.ceil_lt_add_one _
    have h3 : ((n : ℕ) : ℚ) - 1 < D / m := by
      rw [← hnz] at h2
      push_cast at h2
      linarith
    exact (lt_div_iff₀ hdmQ).mp (by linarith)
  have hstop_mk : ∀ j, (mkChunk c D n j).stop = chunkStop D m ov n j := by
    intro j
    unfold Chunk.stop mkChunk
    ring_nf
  have hstart0 : ∀ j, 0 ≤ chunkStart m ov j := by
    intro j
    unfold chunkStart
    split
    · exact le_refl 0
    · exact le_max_left _ _
  have hstopD : ∀ j, chunkStop D m ov n j ≤ D := by
    intro j
    unfold chunkStop
    split
    · exact le_refl D
    · exact min_le_left _ _
  have hLget : ∀ k (hk : k < ((List.range n).map (mkChunk c D n)).length),
      ((List.range n).map (mkChunk c D n)).get ⟨k, hk⟩ = mkChunk c D n k := by
    intro k hk
    simp
  have hLlen : ((List.range n).map (mkChunk c D n)).length = n := by simp
  refine ⟨(List.range n).map (mkChunk c D n), ?_, ?_, ?_, ?_, ?_⟩
  · unfold ChunkPlanner.plan
    rw [if_neg hdeg]
  · rw [hLlen]
    exact hn_pos
  · intro k hk hle
    have hkn : k + 1 < n := by rw [hLlen] at hk; exact hk
    rw [hLget, hLget]
    have hsk1 : chunkStart m ov (k + 1) = ((k : ℚ) + 1) * m - ov := by
      unfold chunkStart
      rw [if_neg (Nat.succ_ne_zero k)]
      rw [max_eq_right]
      · push_cast
        ring
      · have hm1 : (m : ℚ) ≤ ((k : ℚ) + 1) * m := by
          nlinarith [Nat.cast_nonneg (α := ℚ) k]
        push_cast
        nlinarith [hovle.trans hm1]
    have hek : chunkStop D m ov n k = ((k : ℚ) + 1) * m + ov := by
      unfold chunkStop
      rw [if_neg (Nat.ne_of_lt hkn)]
      exact min_eq_right hle
    constructor
    · show chunkStart m ov (k + 1) =
        chunkStart m ov k + (chunkStop D m ov n k - chunkStart m ov k) - 2 * ov
      rw [hsk1, hek]
      ring
    · rw [hstop_mk]
      show chunkStop D m ov n k - chunkStart m ov (k + 1) = 2 * ov
      rw [hsk1, hek]
      ring
  · intro q
    constructor
    swap
    · rintro ⟨j, hj, h1, h2⟩
      rw [hLget] at h1 h2
      rw [hstop_mk] at h2
      have hj1 : 0 ≤ chunkStart m ov j := hstart0 j
      have hj2 : chunkStop D m ov n j ≤ D := hstopD j
      constructor
      · calc (0 : ℚ) ≤ chunkStart m ov j := hj1
          _ ≤ q := h1
      · calc q ≤ chunkStop D m ov n j := h2
          _ ≤ D := hj2
    · rintro ⟨hq0, hqD⟩
      by_cases hcase : ((n : ℚ) - 1) * m ≤ q
      · refine ⟨n - 1, by rw [hLlen]; omega, ?_, ?_⟩
        · rw [hLget]
          show chunkStart m ov (n - 1) ≤ q
          unfold chunkStart
          split
          · exact hq0
          · apply max_le hq0
            have hcast : ((n - 1 : ℕ) : ℚ) = (n : ℚ) - 1 := by
              push_cast [Nat.cast_sub hn_pos]
              ring
            rw [hcast]
            linarith
        · rw [hLget, hstop_mk]
          show q ≤ chunkStop D m ov n (n - 1)
          unfold chunkStop
          rw [if_pos (by omega)]
          exact hqD
      · push_neg at hcase
        have hfl0 : 0 ≤ ⌊q / (m : ℚ)⌋ :=
          Int.floor_nonneg.mpr (div_nonneg hq0 (le_of_lt hdmQ))
        set j := Int.toNat ⌊q / (m : ℚ)⌋ with hjdef
        have hjz : (j : ℤ) = ⌊q / (m : ℚ)⌋ := Int.toNat_of_nonneg hfl0
        have hjle : ((j : ℕ) : ℚ) * m ≤ q := by
          have h1 := Int.floor_le (q / (m : ℚ))
          rw [← hjz] at h1
          have h2 : ((j : ℕ) : ℚ) ≤ q / m := by exact_mod_cast h1
          exact (le_div_iff₀ hdmQ).mp h2
        have hjlt : q < (((j : ℕ) : ℚ) + 1) * m := by
          have h1 := Int.lt_floor_add_one (q / (m : ℚ))
          rw [← hjz] at h1
          have h2 : q / (m : ℚ) < ((j : ℕ) : ℚ) + 1 := by exact_mod_cast h1
          exact (div_lt_iff₀ hdmQ).mp h2
        have hjn : j + 1 < n := by
          have h1 : ((j : ℕ) : ℚ) * m < ((n : ℚ) - 1) * m := lt_of_le_of_lt hjle hcase
          have h2 : ((j : ℕ) : ℚ) < (n : ℚ) - 1 := lt_of_mul_lt_mul_right h1 (le_of_lt hdmQ)
          have h3 : ((j : ℕ) : ℚ) + 1 < (n : ℚ) := by linarith
          have h4 : ((j + 1 : ℕ) : ℚ) < ((n : ℕ) : ℚ) := by push_cast; linarith
          exact_mod_cast h4
        refine ⟨j, by rw [hLlen]; omega, ?_, ?_⟩
        · rw [hLget]
          show chunkStart m ov j ≤ q
          unfold chunkStart
          split
          · exact hq0
          · apply max_le hq0
            have : ((j : ℕ) : ℚ) * m - ov ≤ ((j : ℕ) : ℚ) * m := by linarith
            linarith
        · rw [hLget, hstop_mk]
          show q ≤ chunkStop D m ov n j
          unfold chunkStop
          rw [if_neg (Nat.ne_of_lt hjn)]
          apply le_min hqD
          linarith
  · intro hne
    have hlast : ((List.range n).map (mkChunk c D n)).getLast hne =
        mkChunk c D n (n - 1) := by
      rw [List.getLast_eq_getElem]
      simp only [List.getElem_map, List.getElem_range]
      congr 1
      rw [hLlen]
    rw [hlast, hstop_mk]
    show chunkStop D m ov n (n - 1) = D
    unfold chunkStop
    rw [if_pos (by omega)]

/-- C1 counterexample: under the default configuration a 2400-second
source is planned as three chunks `[0, 900.8]`, `[899.2, 1800.8]`,
`[1799.2, 2400]`; at the first junction `chunk[0].end − chunk[1].start =
1.6 = 2·overlap_sec ≠ overlap_sec`, and `chunk[1].start ≠ chunk[0].start
+ chunk[0].duration − overlap_sec` (which would be 900). -/
theorem chunkPlanner_overlap_claim_cex :
    ChunkPlanner.plan defaultConfig { duration := 2400, byteSize := 30000000 } =
      .ok [{ index := 0, start := 0, duration := 4504/5, expectedBytes := 5404800 },
           { index := 1, start := 4496/5, duration := 4508/5, expectedBytes := 5409600 },
           { index := 2, start := 8996/5, duration := 3004/5, expectedBytes := 3604800 }] ∧
    Chunk.stop { index := 0, start := 0, duration := 4504/5, expectedBytes := 5404800 } -
      (4496/5 : ℚ) ≠ defaultConfig.chunkOverlapSec ∧
    (4496/5 : ℚ) ≠ 0 + 4504/5 - defaultConfig.chunkOverlapSec := by
  have hdm : effectiveMaxChunkDuration defaultConfig = 900 := by decide
  have hbp : bytesPerSec defaultConfig = 6000 := by decide
  have hn : nChunks (2400 : ℚ) 900 = 3 := by
    unfold nChunks
    have hc : ⌈(2400 : ℚ) / (900 : ℕ)⌉ = 3 := by
      rw [Int.ceil_eq_iff]
      push_cast
      norm_num
    rw [hc]
    rfl
  refine ⟨?_, ?_, ?_⟩
  · unfold ChunkPlanner.plan
    rw [if_neg (by decide)]
    simp only [hdm, hn, List.range_succ, List.range_zero, List.map_nil,
      List.map_append, List.map_cons, List.nil_append]
    unfold mkChunk chunkStart chunkStop
    rw [hdm, hbp]
    norm_num [min_def, max_def, defaultConfig]
  · unfold Chunk.stop
    norm_num [defaultConfig]
  · norm_num [defaultConfig]

/-- C1 witness: the amended contiguity statement instantiated at the
default configuration and a 2400-second source. -/
theorem chunkPlanner_contiguity_witness :
    ∃ L, ChunkPlanner.plan defaultConfig { duration := 2400, byteSize := 30000000 } =
        .ok L ∧ 0 < L.length ∧
      (∀ k (hk : k + 1 < L.length),
        ((k : ℚ) + 1) * (effectiveMaxChunkDuration defaultConfig : ℚ) +
            defaultConfig.chunkOverlapSec ≤
            ({ duration := 2400, byteSize := 30000000 } : AudioAsset).duration →
          (L.get ⟨k + 1, hk⟩).start =
            (L.get ⟨k, Nat.lt_of_succ_lt hk⟩).start +
              (L.get ⟨k, Nat.lt_of_succ_lt hk⟩).duration -
              2 * defaultConfig.chunkOverlapSec ∧
          (L.get ⟨k, Nat.lt_of_succ_lt hk⟩).stop - (L.get ⟨k + 1, hk⟩).start =
            2 * defaultConfig.chunkOverlapSec) ∧
      (∀ q : ℚ, (0 ≤ q ∧ q ≤
          ({ duration := 2400, byteSize := 30000000 } : AudioAsset).duration) ↔
        ∃ j, ∃ hj : j < L.length,
          (L.get ⟨j, hj⟩).start ≤ q ∧ q ≤ (L.get ⟨j, hj⟩).stop) ∧
      ∀ hne : L ≠ [], (L.getLast hne).stop =
        ({ duration := 2400, byteSize := 30000000 } : AudioAsset).duration :=
  chunkPlanner_contiguity defaultConfig { duration := 2400, byteSize := 30000000 }
    (by decide) (by norm_num)
    (by norm_num [defaultConfig])
    (by
      rw [show effectiveMaxChunkDuration defaultConfig = 900 from by decide]
      norm_num [defaultConfig])

end YtT
